import Mathlib

/-!
# Verification of the fuzzy command matcher of `astrbot_plugin_command2llm`

This file gives a shallow embedding of `_find_best_command_match`
(`src/main.py`, lines 322-340) and of the string-similarity primitive it
calls, `difflib.SequenceMatcher(None, a, b).ratio()` from the Python
standard library, and proves the specified properties of the matcher.

Strings are embedded as `List Char`; the similarity score, a Python float
`2.0 * M / (len a + len b)`, is embedded as the exact rational `ℚ` (all
comparisons performed by the matcher are between such exact ratios and the
initial value `0`).

`SequenceMatcher` is embedded per its documented algorithm with no junk
heuristic: the `b2j` junk/popular filtering of CPython only activates for
`len(b) >= 200` (`autojunk`), far beyond the command names handled here.
`find_longest_match` returns the longest block of contiguous equal
characters, earliest in `a` then earliest in `b` among maximal ones, and
`ratio` is `2*M/T` where `M` is the total size of the recursively collected
matching blocks and `T` the sum of the lengths (`1.0` when both are empty).
-/

namespace Command2LLM

/-- Length of the longest common prefix run of equal characters of two
strings: the size of the matching block at a fixed pair of positions. -/
def runLen : List Char → List Char → Nat
  | x :: xs, y :: ys => if x = y then runLen xs ys + 1 else 0
  | _, _ => 0

/-- All pairs of start positions `(i, j)`, `i < la`, `j < lb`, in the
lexicographic scan order of `find_longest_match`. -/
def indexPairs (la lb : Nat) : List (Nat × Nat) :=
  (List.range la).flatMap fun i => (List.range lb).map fun j => (i, j)

/-- One scan step of `find_longest_match`: a candidate block strictly longer
than the best one seen so far replaces it (ties keep the earlier block). -/
def flmStep (a b : List Char) (best : Nat × Nat × Nat) (p : Nat × Nat) :
    Nat × Nat × Nat :=
  if best.2.2 < runLen (a.drop p.1) (b.drop p.2) then
    (p.1, p.2, runLen (a.drop p.1) (b.drop p.2))
  else best

/-- `SequenceMatcher.find_longest_match` over whole strings: the triple
`(i, j, k)` of the longest matching block `a[i:i+k] = b[j:j+k]`, earliest in
`a` and then in `b` among maximal ones; `(0, 0, 0)` when nothing matches. -/
def findLongestMatch (a b : List Char) : Nat × Nat × Nat :=
  (indexPairs a.length b.length).foldl (flmStep a b) (0, 0, 0)

/-- Total size of all matching blocks (`sum(size for _, _, size in
get_matching_blocks())`): recursively take the longest matching block and
recurse on the pieces to its left and to its right.  The fuel argument
dominates the recursion depth; `a.length` suffices (each level removes at
least one character of `a`). -/
def matchTotalF : Nat → List Char → List Char → Nat
  | 0, _, _ => 0
  | fuel + 1, a, b =>
    let t := findLongestMatch a b
    if t.2.2 = 0 then 0
    else
      t.2.2 + matchTotalF fuel (a.take t.1) (b.take t.2.1)
        + matchTotalF fuel (a.drop (t.1 + t.2.2)) (b.drop (t.2.1 + t.2.2))

/-- Total number of matched characters between `a` and `b`. -/
def matchTotal (a b : List Char) : Nat :=
  matchTotalF a.length a b

/-- `SequenceMatcher(None, a, b).ratio()`: `2*M / (|a| + |b|)` as an exact
rational, and `1` when both strings are empty (`difflib._calculate_ratio`).
Stated with `Rat.divInt` so that concrete instances evaluate by `decide`. -/
def pyRatio (a b : List Char) : ℚ :=
  if a.length + b.length = 0 then 1
  else Rat.divInt (2 * (matchTotal a b : ℤ)) ((a.length : ℤ) + (b.length : ℤ))

/-- Whitespace as recognized by Python `str.split()` on the ASCII range
(space, tab, newline, carriage return, vertical tab, form feed). -/
def isPySpace (c : Char) : Bool :=
  c = ' ' || c = '\t' || c = '\n' || c = '\r' ||
    c = Char.ofNat 11 || c = Char.ofNat 12

/-- Worker of `pySplit`, accumulating the current (reversed) token. -/
def pySplitGo : List Char → List Char → List (List Char)
  | [], acc => if acc = [] then [] else [acc.reverse]
  | c :: cs, acc =>
    if isPySpace c then
      if acc = [] then pySplitGo cs [] else acc.reverse :: pySplitGo cs []
    else pySplitGo cs (c :: acc)

/-- Python `message.split()`: split on runs of whitespace, no empty tokens. -/
def pySplit (s : List Char) : List (List Char) :=
  pySplitGo s []

/-- The scan loop of `_find_best_command_match` (`src/main.py` 334-338):
`best` is `best_match`, `bestRatio` is `best_ratio`, and a command replaces
the best match only when its ratio is strictly greater. -/
def matchLoop (tok : List Char) :
    List (List Char) → Option (List Char × ℚ) → ℚ → Option (List Char × ℚ)
  | [], best, _ => best
  | cmd :: rest, best, bestRatio =>
    if bestRatio < pyRatio tok cmd then
      matchLoop tok rest (some (cmd, pyRatio tok cmd)) (pyRatio tok cmd)
    else matchLoop tok rest best bestRatio

/-- `_find_best_command_match(message, commands)` (`src/main.py` 322-340):
take the first whitespace-delimited token of `message` (returning `None`
when there is none) and scan `commands` for the best similarity ratio,
starting from `best_match = None`, `best_ratio = 0`. -/
def find_best_command_match (message : List Char)
    (commands : List (List Char)) : Option (List Char × ℚ) :=
  match pySplit message with
  | [] => none
  | tok :: _ => matchLoop tok commands none 0

/-! ## Elementary facts about `runLen` -/

theorem runLen_le_left : ∀ xs ys : List Char, runLen xs ys ≤ xs.length
  | [], _ => by simp [runLen]
  | _ :: _, [] => by simp [runLen]
  | x :: xs, y :: ys => by
    by_cases h : x = y
    · simpa [runLen, h] using runLen_le_left xs ys
    · simp [runLen, h]

theorem runLen_le_right : ∀ xs ys : List Char, runLen xs ys ≤ ys.length
  | [], _ => by simp [runLen]
  | _ :: _, [] => by simp [runLen]
  | x :: xs, y :: ys => by
    by_cases h : x = y
    · simpa [runLen, h] using runLen_le_right xs ys
    · simp [runLen, h]

theorem runLen_nil_left : ∀ ys : List Char, runLen [] ys = 0
  | [] => rfl
  | _ :: _ => rfl

theorem runLen_nil_right : ∀ xs : List Char, runLen xs [] = 0
  | [] => rfl
  | _ :: _ => rfl

/-- The block found by `runLen` is an actual match: both strings agree on
their first `runLen xs ys` characters. -/
theorem take_runLen_eq :
    ∀ xs ys : List Char, xs.take (runLen xs ys) = ys.take (runLen xs ys)
  | [], ys => by simp [runLen_nil_left]
  | _ :: _, [] => by simp [runLen_nil_right]
  | x :: xs, y :: ys => by
    by_cases h : x = y
    · rw [runLen, if_pos h, List.take_succ_cons, List.take_succ_cons, h,
        take_runLen_eq xs ys]
    · simp [runLen, h]

theorem runLen_self : ∀ xs : List Char, runLen xs xs = xs.length
  | [] => by simp [runLen]
  | x :: xs => by simp [runLen, runLen_self xs]

/-! ## The scan invariant of `find_longest_match` -/

/-- Invariant of the scan: the running best block is either the initial
`(0, 0, 0)` or a genuine positive-size block at in-range positions. -/
def flmInv (a b : List Char) (best : Nat × Nat × Nat) : Prop :=
  best = (0, 0, 0) ∨
    (best.1 < a.length ∧ best.2.1 < b.length ∧ 0 < best.2.2 ∧
      best.2.2 = runLen (a.drop best.1) (b.drop best.2.1))

theorem flmStep_inv {a b : List Char} {best : Nat × Nat × Nat}
    (h : flmInv a b best) (p : Nat × Nat) : flmInv a b (flmStep a b best p) := by
  unfold flmStep
  by_cases hlt : best.2.2 < runLen (a.drop p.1) (b.drop p.2)
  · rw [if_pos hlt]
    right
    have hk : 0 < runLen (a.drop p.1) (b.drop p.2) :=
      lt_of_le_of_lt (Nat.zero_le _) hlt
    have ha : p.1 < a.length := by
      by_contra hcon
      have hnil : a.drop p.1 = [] := List.drop_eq_nil_of_le (le_of_not_lt hcon)
      rw [hnil, runLen_nil_left] at hk
      omega
    have hb : p.2 < b.length := by
      by_contra hcon
      have hnil : b.drop p.2 = [] := List.drop_eq_nil_of_le (le_of_not_lt hcon)
      rw [hnil, runLen_nil_right] at hk
      omega
    exact ⟨ha, hb, hk, rfl⟩
  · rw [if_neg hlt]
    exact h

theorem foldl_flmStep_inv {a b : List Char} :
    ∀ (l : List (Nat × Nat)) (best : Nat × Nat × Nat), flmInv a b best →
      flmInv a b (l.foldl (flmStep a b) best)
  | [], _, h => h
  | p :: l, best, h =>
    foldl_flmStep_inv l (flmStep a b best p) (flmStep_inv h p)

theorem findLongestMatch_inv (a b : List Char) :
    flmInv a b (findLongestMatch a b) :=
  foldl_flmStep_inv _ _ (Or.inl rfl)

/-- Bounds and correctness of a nonempty longest match: positions are in
range, the block fits, and the matched slices are equal. -/
theorem findLongestMatch_spec (a b : List Char)
    (h : (findLongestMatch a b).2.2 ≠ 0) :
    (findLongestMatch a b).1 + (findLongestMatch a b).2.2 ≤ a.length ∧
    (findLongestMatch a b).2.1 + (findLongestMatch a b).2.2 ≤ b.length ∧
    (a.drop (findLongestMatch a b).1).take (findLongestMatch a b).2.2 =
      (b.drop (findLongestMatch a b).2.1).take (findLongestMatch a b).2.2 := by
  rcases findLongestMatch_inv a b with heq | ⟨ha, hb, hk, hrun⟩
  · rw [heq] at h; simp at h
  · refine ⟨?_, ?_, ?_⟩
    · have := runLen_le_left (a.drop (findLongestMatch a b).1)
        (b.drop (findLongestMatch a b).2.1)
      rw [← hrun, List.length_drop] at this
      omega
    · have := runLen_le_right (a.drop (findLongestMatch a b).1)
        (b.drop (findLongestMatch a b).2.1)
      rw [← hrun, List.length_drop] at this
      omega
    · rw [hrun]
      exact take_runLen_eq _ _

/-- Once the running best has maximal possible size, later scan steps never
replace it. -/
theorem foldl_flmStep_stable {a b : List Char} {best : Nat × Nat × Nat}
    (h : ∀ p : Nat × Nat, runLen (a.drop p.1) (b.drop p.2) ≤ best.2.2) :
    ∀ l : List (Nat × Nat), l.foldl (flmStep a b) best = best
  | [] => rfl
  | p :: l => by
    have hstep : flmStep a b best p = best := by
      unfold flmStep
      exact if_neg (Nat.not_lt.mpr (h p))
    rw [List.foldl_cons, hstep]
    exact foldl_flmStep_stable h l

theorem findLongestMatch_self (a : List Char) (ha : a ≠ []) :
    findLongestMatch a a = (0, 0, a.length) := by
  obtain ⟨c, cs, rfl⟩ := List.exists_cons_of_ne_nil ha
  have hpairs : ∃ rest, indexPairs (c :: cs).length (c :: cs).length =
      (0, 0) :: rest := by
    simp only [indexPairs, List.length_cons, List.range_succ_eq_map,
      List.flatMap_cons, List.map_cons]
    exact ⟨_, rfl⟩
  obtain ⟨rest, hrest⟩ := hpairs
  unfold findLongestMatch
  rw [hrest, List.foldl_cons]
  have hstep : flmStep (c :: cs) (c :: cs) (0, 0, 0) (0, 0) =
      (0, 0, (c :: cs).length) := by
    unfold flmStep
    simp [runLen_self]
  rw [hstep]
  refine foldl_flmStep_stable ?_ rest
  intro p
  have hle := runLen_le_left ((c :: cs).drop p.1) ((c :: cs).drop p.2)
  simp only [List.length_drop] at hle
  show runLen ((c :: cs).drop p.1) ((c :: cs).drop p.2) ≤ (c :: cs).length
  omega

/-! ## Bounds on the total matched size -/

theorem matchTotalF_succ (fuel : Nat) (a b : List Char) :
    matchTotalF (fuel + 1) a b =
      if (findLongestMatch a b).2.2 = 0 then 0
      else
        (findLongestMatch a b).2.2
          + matchTotalF fuel (a.take (findLongestMatch a b).1)
              (b.take (findLongestMatch a b).2.1)
          + matchTotalF fuel
              (a.drop ((findLongestMatch a b).1 + (findLongestMatch a b).2.2))
              (b.drop ((findLongestMatch a b).2.1 + (findLongestMatch a b).2.2)) :=
  rfl

theorem matchTotalF_le_left :
    ∀ (fuel : Nat) (a b : List Char), matchTotalF fuel a b ≤ a.length
  | 0, _, _ => Nat.zero_le _
  | fuel + 1, a, b => by
    rw [matchTotalF_succ]
    by_cases h : (findLongestMatch a b).2.2 = 0
    · rw [if_pos h]; exact Nat.zero_le _
    · rw [if_neg h]
      obtain ⟨hA, hB, _⟩ := findLongestMatch_spec a b h
      have h1 := matchTotalF_le_left fuel (a.take (findLongestMatch a b).1)
        (b.take (findLongestMatch a b).2.1)
      have h2 := matchTotalF_le_left fuel
        (a.drop ((findLongestMatch a b).1 + (findLongestMatch a b).2.2))
        (b.drop ((findLongestMatch a b).2.1 + (findLongestMatch a b).2.2))
      rw [List.length_take] at h1
      rw [List.length_drop] at h2
      omega

theorem matchTotalF_le_right :
    ∀ (fuel : Nat) (a b : List Char), matchTotalF fuel a b ≤ b.length
  | 0, _, _ => Nat.zero_le _
  | fuel + 1, a, b => by
    rw [matchTotalF_succ]
    by_cases h : (findLongestMatch a b).2.2 = 0
    · rw [if_pos h]; exact Nat.zero_le _
    · rw [if_neg h]
      obtain ⟨hA, hB, _⟩ := findLongestMatch_spec a b h
      have h1 := matchTotalF_le_right fuel (a.take (findLongestMatch a b).1)
        (b.take (findLongestMatch a b).2.1)
      have h2 := matchTotalF_le_right fuel
        (a.drop ((findLongestMatch a b).1 + (findLongestMatch a b).2.2))
        (b.drop ((findLongestMatch a b).2.1 + (findLongestMatch a b).2.2))
      rw [List.length_take] at h1
      rw [List.length_drop] at h2
      omega

theorem matchTotal_le_left (a b : List Char) : matchTotal a b ≤ a.length :=
  matchTotalF_le_left _ _ _

theorem matchTotal_le_right (a b : List Char) : matchTotal a b ≤ b.length :=
  matchTotalF_le_right _ _ _

/-- A full match (`M = |a| = |b|`) pins the strings down: all characters of
both sides lie in equal matching blocks, in order, so the strings are equal. -/
theorem matchTotalF_full :
    ∀ (fuel : Nat) (a b : List Char), a.length ≤ fuel →
      matchTotalF fuel a b = a.length → matchTotalF fuel a b = b.length → a = b
  | 0, a, b, hfuel, ha, hb => by
    have ha0 : a.length = 0 := by omega
    have hb0 : b.length = 0 := by
      have : matchTotalF 0 a b = 0 := rfl
      omega
    rw [List.eq_nil_of_length_eq_zero ha0, List.eq_nil_of_length_eq_zero hb0]
  | fuel + 1, a, b, hfuel, ha, hb => by
    rw [matchTotalF_succ] at ha hb
    by_cases h : (findLongestMatch a b).2.2 = 0
    · rw [if_pos h] at ha hb
      rw [List.eq_nil_of_length_eq_zero ha.symm,
        List.eq_nil_of_length_eq_zero hb.symm]
    · rw [if_neg h] at ha hb
      obtain ⟨hA, hB, hslice⟩ := findLongestMatch_spec a b h
      set i := (findLongestMatch a b).1 with hi
      set j := (findLongestMatch a b).2.1 with hj
      set k := (findLongestMatch a b).2.2 with hk
      have hk0 : 0 < k := Nat.pos_of_ne_zero h
      have e1l := matchTotalF_le_left fuel (a.take i) (b.take j)
      have e1r := matchTotalF_le_right fuel (a.take i) (b.take j)
      have e2l := matchTotalF_le_left fuel (a.drop (i + k)) (b.drop (j + k))
      have e2r := matchTotalF_le_right fuel (a.drop (i + k)) (b.drop (j + k))
      rw [List.length_take] at e1l e1r
      rw [List.length_drop] at e2l e2r
      have h1 : a.take i = b.take j := by
        apply matchTotalF_full fuel
        · rw [List.length_take]; omega
        · rw [List.length_take]; omega
        · rw [List.length_take]; omega
      have h2 : a.drop (i + k) = b.drop (j + k) := by
        apply matchTotalF_full fuel
        · rw [List.length_drop]; omega
        · rw [List.length_drop]; omega
        · rw [List.length_drop]; omega
      have hdrop : (a.drop i).drop k = (b.drop j).drop k := by
        rw [List.drop_drop, List.drop_drop]
        exact h2
      calc a = a.take i ++ ((a.drop i).take k ++ (a.drop i).drop k) := by
              rw [List.take_append_drop, List.take_append_drop]
        _ = b.take j ++ ((b.drop j).take k ++ (b.drop j).drop k) := by
              rw [h1, hslice, hdrop]
        _ = b := by rw [List.take_append_drop, List.take_append_drop]

theorem matchTotalF_nil_nil (fuel : Nat) : matchTotalF fuel [] [] = 0 := by
  cases fuel with
  | zero => rfl
  | succ fuel => rfl

theorem matchTotal_self (a : List Char) : matchTotal a a = a.length := by
  cases a with
  | nil => rfl
  | cons c cs =>
    have hne : (c :: cs) ≠ [] := by simp
    show matchTotalF (c :: cs).length (c :: cs) (c :: cs) = (c :: cs).length
    rw [List.length_cons, matchTotalF_succ, findLongestMatch_self _ hne]
    simp [matchTotalF_nil_nil, List.drop_length]

/-! ## Range and separation facts about the similarity ratio -/

/-- The ratio in field form, for nonzero total length. -/
theorem pyRatio_eq (a b : List Char) (h : a.length + b.length ≠ 0) :
    pyRatio a b =
      (2 * (matchTotal a b : ℚ)) / ((a.length : ℚ) + (b.length : ℚ)) := by
  unfold pyRatio
  rw [if_neg h, Rat.divInt_eq_div]
  push_cast
  ring

theorem pyRatio_nonneg (a b : List Char) : 0 ≤ pyRatio a b := by
  by_cases h : a.length + b.length = 0
  · unfold pyRatio
    rw [if_pos h]
    norm_num
  · rw [pyRatio_eq a b h]
    apply div_nonneg
    · positivity
    · positivity

theorem pyRatio_le_one (a b : List Char) : pyRatio a b ≤ 1 := by
  by_cases h : a.length + b.length = 0
  · unfold pyRatio
    rw [if_pos h]
  · rw [pyRatio_eq a b h]
    have hpos : (0 : ℚ) < (a.length : ℚ) + b.length := by
      have hp : 0 < a.length + b.length := Nat.pos_of_ne_zero h
      exact_mod_cast hp
    rw [div_le_one hpos]
    have h1 := matchTotal_le_left a b
    have h2 := matchTotal_le_right a b
    have hsum : 2 * matchTotal a b ≤ a.length + b.length := by omega
    exact_mod_cast hsum

theorem pyRatio_self (a : List Char) : pyRatio a a = 1 := by
  by_cases h : a.length + a.length = 0
  · unfold pyRatio
    rw [if_pos h]
  · rw [pyRatio_eq a a h, matchTotal_self]
    have hne : ((a.length : ℚ) + a.length) ≠ 0 := by
      have hp : 0 < a.length + a.length := Nat.pos_of_ne_zero h
      have hq : (0 : ℚ) < (a.length : ℚ) + a.length := by exact_mod_cast hp
      exact ne_of_gt hq
    rw [div_eq_iff hne, one_mul]
    ring

/-- A ratio of exactly `1.0` identifies the strings. -/
theorem eq_of_pyRatio_eq_one {a b : List Char} (h : pyRatio a b = 1) :
    a = b := by
  by_cases hlen : a.length + b.length = 0
  · rw [List.eq_nil_of_length_eq_zero (show a.length = 0 by omega),
      List.eq_nil_of_length_eq_zero (show b.length = 0 by omega)]
  · rw [pyRatio_eq a b hlen] at h
    have hne : ((a.length : ℚ) + b.length) ≠ 0 := by
      have hp : 0 < a.length + b.length := Nat.pos_of_ne_zero hlen
      have hq : (0 : ℚ) < (a.length : ℚ) + b.length := by exact_mod_cast hp
      exact ne_of_gt hq
    rw [div_eq_iff hne, one_mul] at h
    have hnat : 2 * matchTotal a b = a.length + b.length := by exact_mod_cast h
    have h1 := matchTotal_le_left a b
    have h2 := matchTotal_le_right a b
    have hA : matchTotal a b = a.length := by omega
    have hB : matchTotal a b = b.length := by omega
    exact matchTotalF_full a.length a b le_rfl hA hB

/-! ## Characterization of the scan loop -/

/-- Full characterization of the loop of `_find_best_command_match`: either
no command beats the incoming `best_ratio` and the incoming best match is
returned unchanged, or the returned match is the first command whose ratio
equals the running maximum — every earlier command scores strictly lower and
every later one scores no higher. -/
theorem matchLoop_spec (tok : List Char) :
    ∀ (cmds : List (List Char)) (best : Option (List Char × ℚ)) (br : ℚ),
      (matchLoop tok cmds best br = best ∧ ∀ c ∈ cmds, pyRatio tok c ≤ br) ∨
      (∃ l1 name l2, cmds = l1 ++ name :: l2 ∧
        matchLoop tok cmds best br = some (name, pyRatio tok name) ∧
        br < pyRatio tok name ∧
        (∀ c ∈ l1, pyRatio tok c < pyRatio tok name) ∧
        (∀ c ∈ l2, pyRatio tok c ≤ pyRatio tok name))
  | [], best, br => Or.inl ⟨rfl, by simp⟩
  | cmd :: rest, best, br => by
    by_cases h : br < pyRatio tok cmd
    · rw [matchLoop, if_pos h]
      rcases matchLoop_spec tok rest (some (cmd, pyRatio tok cmd))
          (pyRatio tok cmd) with ⟨heq, hall⟩ | ⟨l1, name, l2, hs, heq, hlt, h1, h2⟩
      · exact Or.inr ⟨[], cmd, rest, rfl, heq, h, by simp, hall⟩
      · refine Or.inr ⟨cmd :: l1, name, l2, by rw [hs]; rfl, heq,
          lt_trans h hlt, ?_, h2⟩
        intro c hc
        rcases List.mem_cons.mp hc with rfl | hc
        · exact hlt
        · exact h1 c hc
    · rw [matchLoop, if_neg h]
      rcases matchLoop_spec tok rest best br with
        ⟨heq, hall⟩ | ⟨l1, name, l2, hs, heq, hlt, h1, h2⟩
      · refine Or.inl ⟨heq, ?_⟩
        intro c hc
        rcases List.mem_cons.mp hc with rfl | hc
        · exact le_of_not_lt h
        · exact hall c hc
      · refine Or.inr ⟨cmd :: l1, name, l2, by rw [hs]; rfl, heq, hlt, ?_, h2⟩
        intro c hc
        rcases List.mem_cons.mp hc with rfl | hc
        · exact lt_of_le_of_lt (le_of_not_lt h) hlt
        · exact h1 c hc

/-- A returned match decomposes the matcher's run: the message has a first
token, the returned name sits in the command list after strictly worse
commands and before no better ones, and the score is its exact ratio. -/
theorem find_some_spec {msg : List Char} {cmds : List (List Char)}
    {name : List Char} {s : ℚ}
    (h : find_best_command_match msg cmds = some (name, s)) :
    ∃ tok rest, pySplit msg = tok :: rest ∧
      s = pyRatio tok name ∧ 0 < s ∧
      ∃ l1 l2, cmds = l1 ++ name :: l2 ∧
        (∀ c ∈ l1, pyRatio tok c < s) ∧
        (∀ c ∈ l2, pyRatio tok c ≤ s) := by
  unfold find_best_command_match at h
  rcases hsp : pySplit msg with _ | ⟨tok, rest⟩
  · rw [hsp] at h
    exact Option.noConfusion h
  · rw [hsp] at h
    have h' : matchLoop tok cmds none 0 = some (name, s) := h
    rcases matchLoop_spec tok cmds none 0 with
      ⟨heq, _⟩ | ⟨l1, name0, l2, hs, heq, hlt, h1, h2⟩
    · rw [heq] at h'
      exact Option.noConfusion h'
    · rw [heq] at h'
      have hp : (name0, pyRatio tok name0) = (name, s) := Option.some.inj h'
      have hname : name0 = name := congrArg Prod.fst hp
      have hsc : s = pyRatio tok name := by
        rw [← hname]
        exact (congrArg Prod.snd hp).symm
      subst hname
      exact ⟨tok, rest, rfl, hsc, by rw [hsc]; exact hlt, l1, l2, hs,
        by rw [hsc]; exact h1, by rw [hsc]; exact h2⟩

/-! ## The degenerate whitespace case -/

theorem pySplitGo_all_space :
    ∀ s : List Char, (∀ c ∈ s, isPySpace c = true) → pySplitGo s [] = []
  | [], _ => rfl
  | c :: cs, h => by
    rw [pySplitGo, if_pos (h c (List.mem_cons_self c cs)), if_pos rfl]
    exact pySplitGo_all_space cs fun x hx => h x (List.mem_cons_of_mem c hx)

theorem pySplit_all_space {s : List Char}
    (h : ∀ c ∈ s, isPySpace c = true) : pySplit s = [] :=
  pySplitGo_all_space s h

/-! ## The claims -/

/-- Claim C1, counterexample: with message `"a"` (whose first token `"a"` is
non-empty) and the non-empty command list `["b"]`, `_find_best_command_match`
returns no pair at all — every ratio is `0`, `best_ratio` starts at `0`, the
strict comparison `ratio > best_ratio` never fires and `best_match` stays
`None` — refuting the claim that a `(name, ratio)` pair is always returned. -/
theorem claim_C1_counterexample :
    pySplit "a".toList ≠ [] ∧ (["b".toList] : List (List Char)) ≠ [] ∧
      find_best_command_match "a".toList ["b".toList] = none := by decide

/-- Claim C1 (amended): for every message whose first whitespace-delimited
token is non-empty and every command list in which at least one command has
positive similarity ratio against that token, `_find_best_command_match`
returns a pair `(name, ratio)` where `ratio` is the maximum of the ratios
over the list and `name` is a command of the list attaining it. -/
theorem claim_C1 (msg : List Char) (cmds : List (List Char))
    (tok : List Char) (rest : List (List Char))
    (hsplit : pySplit msg = tok :: rest)
    (hpos : ∃ c ∈ cmds, 0 < pyRatio tok c) :
    ∃ name s, find_best_command_match msg cmds = some (name, s) ∧
      name ∈ cmds ∧ s = pyRatio tok name ∧
      ∀ c ∈ cmds, pyRatio tok c ≤ s := by
  obtain ⟨c0, hc0, hc0pos⟩ := hpos
  rcases matchLoop_spec tok cmds none 0 with
    ⟨heq, hall⟩ | ⟨l1, name, l2, hs, heq, hlt, h1, h2⟩
  · exact absurd (hall c0 hc0) (not_le.mpr hc0pos)
  · refine ⟨name, pyRatio tok name, ?_, ?_, rfl, ?_⟩
    · unfold find_best_command_match
      rw [hsplit]
      exact heq
    · rw [hs]
      exact List.mem_append_right _ (List.mem_cons_self _ _)
    · intro c hc
      rw [hs] at hc
      rcases List.mem_append.mp hc with hc | hc
      · exact le_of_lt (h1 c hc)
      · rcases List.mem_cons.mp hc with rfl | hc
        · exact le_refl _
        · exact h2 c hc

/-- Witness for C1 at message `"ab"` and command list `["ab"]`. -/
theorem claim_C1_witness :
    ∃ name s, find_best_command_match "ab".toList ["ab".toList] =
        some (name, s) ∧
      name ∈ ["ab".toList] ∧ s = pyRatio "ab".toList name ∧
      ∀ c ∈ ["ab".toList], pyRatio "ab".toList c ≤ s :=
  claim_C1 _ _ "ab".toList [] (by decide) (by decide)

/-- Claim C2: whenever the first whitespace-delimited token of the message is
itself an element of the command list, the matcher returns that token with
score `1.0` (only an identical string scores `1.0`, so no earlier command can
pre-empt it, and later ones can never strictly beat it). -/
theorem claim_C2 (msg : List Char) (cmds : List (List Char))
    (tok : List Char) (rest : List (List Char))
    (hsplit : pySplit msg = tok :: rest) (hmem : tok ∈ cmds) :
    find_best_command_match msg cmds = some (tok, 1) := by
  rcases matchLoop_spec tok cmds none 0 with
    ⟨heq, hall⟩ | ⟨l1, name, l2, hs, heq, hlt, h1, h2⟩
  · have hle := hall tok hmem
    rw [pyRatio_self] at hle
    norm_num at hle
  · have hmax : pyRatio tok tok ≤ pyRatio tok name := by
      rw [hs] at hmem
      rcases List.mem_append.mp hmem with hm | hm
      · exact le_of_lt (h1 tok hm)
      · rcases List.mem_cons.mp hm with heqq | hm
        · rw [heqq]
        · exact h2 tok hm
    rw [pyRatio_self] at hmax
    have hone : pyRatio tok name = 1 :=
      le_antisymm (pyRatio_le_one tok name) hmax
    have htokname : tok = name := eq_of_pyRatio_eq_one hone
    unfold find_best_command_match
    rw [hsplit]
    show matchLoop tok cmds none 0 = some (tok, 1)
    rw [heq, ← htokname, pyRatio_self]

/-- Witness for C2: `"天气 今天"` against `["帮助", "天气"]` matches
`"天气"` exactly. -/
theorem claim_C2_witness :
    find_best_command_match "天气 今天".toList
        ["帮助".toList, "天气".toList] = some ("天气".toList, 1) :=
  claim_C2 _ _ "天气".toList ["今天".toList] (by decide) (by decide)

/-- Claim C3: a message consisting only of whitespace characters splits into
no tokens, and the matcher returns `None` for every command list. -/
theorem claim_C3 (msg : List Char) (cmds : List (List Char))
    (h : ∀ c ∈ msg, isPySpace c = true) :
    find_best_command_match msg cmds = none := by
  unfold find_best_command_match
  rw [pySplit_all_space h]

/-- Witness for C3 at the two-space message `"  "`. -/
theorem claim_C3_witness :
    find_best_command_match "  ".toList ["帮助".toList] = none :=
  claim_C3 _ _ (by decide)

/-- Claim C4: with an empty command list the scan loop never executes, so the
matcher returns `None` for every input message. -/
theorem claim_C4 (msg : List Char) :
    find_best_command_match msg [] = none := by
  unfold find_best_command_match
  rcases hsp : pySplit msg with _ | ⟨tok, rest⟩
  · rfl
  · rfl

set_option maxRecDepth 4000 in
/-- Claim C5, counterexample: for message `"群分析"` and the literal command
list `["群分析 7#分析群聊", "天气", "帮助"]` of the claim, the code returns
the whole list element `"群分析 7#分析群聊"` (not `"群分析 7"`), and its
score is `6/13 ≈ 0.46`, which is not greater than `0.5`. -/
theorem claim_C5_counterexample :
    find_best_command_match "群分析".toList
        ["群分析 7#分析群聊".toList, "天气".toList, "帮助".toList] =
      some ("群分析 7#分析群聊".toList, Rat.divInt 6 13) ∧
    "群分析 7#分析群聊".toList ≠ "群分析 7".toList ∧
    Rat.divInt 6 13 ≤ Rat.divInt 1 2 := by decide

set_option maxRecDepth 4000 in
/-- Claim C5 (amended): on the literal command list of the claim the matcher
returns `("群分析 7#分析群聊", 6/13)`, a maximal but below-`0.5` score; the
claimed result `("群分析 7", score > 0.5)` — score `3/4` — is obtained on
the description-stripped command list `["群分析 7", "天气", "帮助"]` that
`_get_all_available_commands` (which cuts each entry at `'#'`) produces. -/
theorem claim_C5 :
    find_best_command_match "群分析".toList
        ["群分析 7#分析群聊".toList, "天气".toList, "帮助".toList] =
      some ("群分析 7#分析群聊".toList, Rat.divInt 6 13) ∧
    find_best_command_match "群分析".toList
        ["群分析 7".toList, "天气".toList, "帮助".toList] =
      some ("群分析 7".toList, Rat.divInt 3 4) ∧
    Rat.divInt 1 2 < Rat.divInt 3 4 := by decide

/-- Claim C6: every returned score lies in `[0, 1]`, and the underlying
similarity ratio lies in `[0, 1]` for every pair of strings compared. -/
theorem claim_C6 (msg : List Char) (cmds : List (List Char))
    (name : List Char) (s : ℚ)
    (h : find_best_command_match msg cmds = some (name, s)) :
    0 ≤ s ∧ s ≤ 1 ∧ ∀ a b : List Char, 0 ≤ pyRatio a b ∧ pyRatio a b ≤ 1 := by
  obtain ⟨tok, rest, hsplit, hsc, hpos, _⟩ := find_some_spec h
  refine ⟨le_of_lt hpos, ?_, fun a b => ⟨pyRatio_nonneg a b, pyRatio_le_one a b⟩⟩
  rw [hsc]
  exact pyRatio_le_one tok name

/-- Witness for C6 at message `"ab"` and command list `["abc"]`, where the
returned score is `4/5`. -/
theorem claim_C6_witness :
    0 ≤ Rat.divInt 4 5 ∧ Rat.divInt 4 5 ≤ 1 ∧
      ∀ a b : List Char, 0 ≤ pyRatio a b ∧ pyRatio a b ≤ 1 :=
  claim_C6 "ab".toList ["abc".toList] "abc".toList (Rat.divInt 4 5) (by decide)

/-- Claim C7: the returned command splits the list so that everything before
it scores strictly below the returned score and everything after it scores
no higher — on ties for the maximum, the first-encountered command wins. -/
theorem claim_C7 (msg : List Char) (cmds : List (List Char))
    (name : List Char) (s : ℚ)
    (h : find_best_command_match msg cmds = some (name, s)) :
    ∃ tok rest l1 l2, pySplit msg = tok :: rest ∧ cmds = l1 ++ name :: l2 ∧
      (∀ c ∈ l1, pyRatio tok c < s) ∧ (∀ c ∈ l2, pyRatio tok c ≤ s) := by
  obtain ⟨tok, rest, hsplit, hsc, hpos, l1, l2, hs, h1, h2⟩ := find_some_spec h
  exact ⟨tok, rest, l1, l2, hsplit, hs, h1, h2⟩

/-- Witness for C7: `"ax"` and `"bx"` both score `1/2` against token `"ab"`;
the matcher returns the first of the two. -/
theorem claim_C7_witness :
    ∃ tok rest l1 l2, pySplit "ab".toList = tok :: rest ∧
      (["ax".toList, "bx".toList] : List (List Char)) =
        l1 ++ "ax".toList :: l2 ∧
      (∀ c ∈ l1, pyRatio tok c < Rat.divInt 1 2) ∧ (∀ c ∈ l2, pyRatio tok c ≤ Rat.divInt 1 2) :=
  claim_C7 "ab".toList ["ax".toList, "bx".toList] "ax".toList (Rat.divInt 1 2)
    (by decide)

/-- Claim C8: the matcher's result is a function of the first
whitespace-delimited token alone (besides the command list): two messages
with the same first token give equal results.  The embedding is a pure
function, so the call has no effect on any state. -/
theorem claim_C8 (m1 m2 : List Char) (cmds : List (List Char))
    (h : (pySplit m1).head? = (pySplit m2).head?) :
    find_best_command_match m1 cmds = find_best_command_match m2 cmds := by
  unfold find_best_command_match
  rcases h1 : pySplit m1 with _ | ⟨t1, r1⟩ <;>
    rcases h2 : pySplit m2 with _ | ⟨t2, r2⟩
  · rfl
  · exact absurd h (by rw [h1, h2]; simp)
  · exact absurd h (by rw [h1, h2]; simp)
  · have ht : t1 = t2 := by
      rw [h1, h2] at h
      simpa using h
    show matchLoop t1 cmds none 0 = matchLoop t2 cmds none 0
    rw [ht]

/-- Witness for C8: `"ab cd"` and `"ab"` share the first token `"ab"`. -/
theorem claim_C8_witness :
    find_best_command_match "ab cd".toList ["ab".toList] =
      find_best_command_match "ab".toList ["ab".toList] :=
  claim_C8 _ _ _ (by decide)

/-- Claim C9: a returned match always carries a strictly positive score, and
when every command of the list has ratio `0` against the first token the
matcher returns `None` even though the list is non-empty (the update guard
`ratio > best_ratio` with `best_ratio = 0` never fires). -/
theorem claim_C9 (msg : List Char) (cmds : List (List Char)) :
    (∀ name s, find_best_command_match msg cmds = some (name, s) → 0 < s) ∧
    (∀ tok rest, pySplit msg = tok :: rest →
      (∀ c ∈ cmds, pyRatio tok c = 0) →
      find_best_command_match msg cmds = none) := by
  constructor
  · intro name s h
    obtain ⟨_, _, _, _, hpos, _⟩ := find_some_spec h
    exact hpos
  · intro tok rest hsplit hz
    unfold find_best_command_match
    rw [hsplit]
    show matchLoop tok cmds none 0 = none
    rcases matchLoop_spec tok cmds none 0 with
      ⟨heq, _⟩ | ⟨l1, name, l2, hs, heq, hlt, _, _⟩
    · exact heq
    · have hzn : pyRatio tok name = 0 := hz name
        (by rw [hs]; exact List.mem_append_right _ (List.mem_cons_self _ _))
      rw [hzn] at hlt
      exact absurd hlt (lt_irrefl 0)

/-- Witness for C9: the match of `"ab"` against `["abc"]` scores `4/5 > 0`. -/
theorem claim_C9_witness : 0 < Rat.divInt 4 5 :=
  (claim_C9 "ab".toList ["abc".toList]).1 "abc".toList (Rat.divInt 4 5) (by decide)

/-- Claim C10: a returned match names an element of the input command list,
and its score is exactly the similarity ratio between the first token of the
message and that element. -/
theorem claim_C10 (msg : List Char) (cmds : List (List Char))
    (name : List Char) (s : ℚ)
    (h : find_best_command_match msg cmds = some (name, s)) :
    name ∈ cmds ∧
      ∃ tok rest, pySplit msg = tok :: rest ∧ s = pyRatio tok name := by
  obtain ⟨tok, rest, hsplit, hsc, _, l1, l2, hs, _, _⟩ := find_some_spec h
  exact ⟨by rw [hs]; exact List.mem_append_right _ (List.mem_cons_self _ _),
    tok, rest, hsplit, hsc⟩

/-- Witness for C10 at message `"天气 预报"` and command list `["天气"]`. -/
theorem claim_C10_witness :
    "天气".toList ∈ [("天气".toList)] ∧
      ∃ tok rest, pySplit "天气 预报".toList = tok :: rest ∧
        (1 : ℚ) = pyRatio tok "天气".toList :=
  claim_C10 "天气 预报".toList ["天气".toList] "天气".toList 1 (by decide)

end Command2LLM
